import Mathlib

/-!
Shallow embedding of PyCO2SYS's uncertainty-propagation engine
(`PyCO2SYS/uncertainty.py`): the step-size policy `_get_dx_wrt`, the
override builder `_overridekwargs`, the forward finite-difference driver
`forward`, and the uncertainty aggregator `propagate`.

Modelling choices.  Python dicts are insertion-ordered association lists
over `String` keys; numeric arrays are `List ℝ` (one entry per sample
point); `numpy` elementwise arithmetic is `List.map` / `List.zipWith`.
The external chemical-speciation solver `engine._CO2SYS` and the
gradable-output list `engine.gradables` are parameters, matching the
spec's treatment of them as external collaborators behind the solver and
registry boundaries.  Python `assert` failures, `TypeError` and
`UnboundLocalError` are modelled with an error type through `Except`.
`forwardAux` additionally returns the list of argument sets actually
passed to the solver (the solver-invocation trace), so that properties
about how often and with which arguments the solver is invoked are
statable; `forward` itself discards the trace, as the Python function
has no such output.
-/

namespace PyCO2SYS

/-- A numeric array: one value per sample point. -/
abbrev Arr := List ℝ

/-- A string-keyed dict with `Arr` values, insertion ordered. -/
abbrev StrDict := List (String × Arr)

/-- Errors surfaced by the engine: Python `AssertionError` (with the
subject of the failed assert), `TypeError` (calling `None`),
`UnboundLocalError` (reading a local that no branch assigned), and an
error raised by the external solver. -/
inductive Err where
  | assertion (subject : String)
  | typeError
  | unboundLocal
  | solver (msg : String)
  deriving DecidableEq

/-- Lookup of the first binding of key `k`, like Python `d[k]` /
`k in d` (the list never holds duplicate keys in practice, so first
binding matches dict semantics). -/
def alookup {α : Type} : List (String × α) → String → Option α
  | [], _ => none
  | (k', v) :: rest, k => if k' = k then some v else alookup rest k

/-- Python `d[k] = v` / `d.update({k: v})`: replace the first binding of
`k` in place, or append a new binding. -/
def aupdate {α : Type} : List (String × α) → String → α → List (String × α)
  | [], k, v => [(k, v)]
  | (k', v') :: rest, k, v =>
    if k' = k then (k', v) :: rest else (k', v') :: aupdate rest k v

/-- Lookup in an optional dict (a kwargs slot that may be `None`). -/
def olookup (o : Option StrDict) (k : String) : Option Arr :=
  o.bind (fun d => alookup d k)

/-- Read `co2dict[k]`; a well-formed baseline dict contains every key the
engine reads, so the `[]` default of a missing key is never exercised by
the claims (Python would raise `KeyError` there). -/
def dget (d : StrDict) (k : String) : Arr :=
  (alookup d k).getD []

/-- Character-list helper: if `pat` is an initial run of `s`, return the
remainder of `s`. -/
def stripPrefixQ : List Char → List Char → Option (List Char)
  | [], s => some s
  | _ :: _, [] => none
  | p :: ps, c :: cs => if p = c then stripPrefixQ ps cs else none

/-- Python `s.startswith(pre)`. -/
def strStartsWith (s pre : String) : Bool :=
  (stripPrefixQ pre.data s.data).isSome

/-- Python `s[n:]`. -/
def strDrop (s : String) (n : Nat) : String :=
  String.mk (s.data.drop n)

/-- Fuel-indexed worker for `strReplace`; with fuel at least the length
of the subject and a nonempty pattern it removes every occurrence of the
pattern, exactly like Python `s.replace(pat, "")` (the engine only ever
replaces with the empty string). -/
def replaceFuel (pat : List Char) : Nat → List Char → List Char
  | _, [] => []
  | 0, s => s
  | fuel + 1, c :: cs =>
    match stripPrefixQ pat (c :: cs) with
    | some rest => replaceFuel pat fuel rest
    | none => c :: replaceFuel pat fuel cs

/-- Python `s.replace(pat, "")`. -/
def strReplace (s pat : String) : String :=
  String.mk (replaceFuel pat.data s.data.length s.data)

/-- Ascending insertion into a sorted list (comparison on `ℝ`). -/
noncomputable def insortReal (x : ℝ) : List ℝ → List ℝ
  | [] => [x]
  | y :: ys => if x ≤ y then x :: y :: ys else y :: insortReal x ys

/-- Ascending sort of an array. -/
noncomputable def rsort (xs : List ℝ) : List ℝ :=
  xs.foldr insortReal []

/-- Model of `numpy.nanmedian` / `numpy.median` on an array without NaNs
(`ℝ` has none): middle element of the sorted array, or the mean of the
two middle elements for even length.  The empty case (where numpy yields
NaN with a warning) is mapped to `0` and never exercised by the claims. -/
noncomputable def nanmedian (xs : Arr) : ℝ :=
  let s := rsort xs
  let n := s.length
  if n = 0 then 0
  else if n % 2 = 1 then s.getD (n / 2) 0
  else (s.getD (n / 2 - 1) 0 + s.getD (n / 2) 0) / 2

/-- Embedding of `_get_dx_wrt(dx, var, dx_scaling, dx_func)`: scale `dx`
for a particular variable.  The leading membership test is the source's
`assert dx_scaling in ["none", "median", "custom"]`; `dx_func=None` in
`"custom"` mode is Python's `TypeError` from calling `None`. -/
noncomputable def getDxWrt (dx : ℝ) (var : Arr) (dx_scaling : String)
    (dx_func : Option (Arr → ℝ)) : Except Err ℝ :=
  if dx_scaling ∈ (["none", "median", "custom"] : List String) then
    if dx_scaling = "none" then .ok dx
    else if dx_scaling = "median" then
      if nanmedian var = 0 then .ok dx
      else .ok (dx * |nanmedian var|)
    else
      match dx_func with
      | some f => .ok (f var)
      | none => .error Err.typeError
  else .error (Err.assertion "dx_scaling")

/-- The `co2kwargs` dict built in `forward`: the `KSO4CONSTANTS`
pass-through plus the three optional override dicts. -/
structure Kwargs where
  KSO4CONSTANTS : Arr
  totals : Option StrDict
  equilibria_in : Option StrDict
  equilibria_out : Option StrDict

/-- Python `co2kwargs_plus[kwarg]` for the three override slots. -/
def getKwarg (kw : Kwargs) (g : String) : Option StrDict :=
  if g = "totals" then kw.totals
  else if g = "equilibria_in" then kw.equilibria_in
  else if g = "equilibria_out" then kw.equilibria_out
  else none

/-- Python `co2kwargs_plus[kwarg] = d` for the three override slots. -/
def setKwarg (kw : Kwargs) (g : String) (d : StrDict) : Kwargs :=
  if g = "totals" then { kw with totals := some d }
  else if g = "equilibria_in" then { kw with equilibria_in := some d }
  else if g = "equilibria_out" then { kw with equilibria_out := some d }
  else kw

/-- The bare storage key computed at the top of `_overridekwargs`: strip
the `"p"` cologarithm marker, then the `"input"`/`"output"` suffix
appropriate to the kwargs slot. -/
def okStem (kwarg wrt0 : String) : String :=
  let wrt := if strStartsWith wrt0 "pK" then strDrop wrt0 1 else wrt0
  if kwarg = "equilibria_in" then strReplace wrt "input"
  else if kwarg = "equilibria_out" then strReplace wrt "output"
  else wrt

/-- The suffixed constant name after stripping the cologarithm marker
(the reassignment `wrt = wrt[1:]` at the top of `_overridekwargs`). -/
def okWrt (wrt0 : String) : String :=
  if strStartsWith wrt0 "pK" then strDrop wrt0 1 else wrt0

/-- The seeding steps of `_overridekwargs` applied to the current kwargs
slot `cur`: create the dict from the baseline value when the slot is
`None`, then re-add the field when `wrt` — the suffixed name, not the
bare stem under which values are stored — is absent. -/
def okSeeded (co2dict : StrDict) (cur : Option StrDict) (kwarg wrt0 : String) : StrDict :=
  let wrt := okWrt wrt0
  let wrt_stem := okStem kwarg wrt0
  let d0 : StrDict :=
    match cur with
    | none => [(wrt_stem, dget co2dict wrt)]
    | some d => d
  if (alookup d0 wrt).isSome then d0
  else aupdate d0 wrt_stem (dget co2dict wrt)

/-- The array `pKvalues = -log10(co2kwargs_plus[kwarg][wrt_stem])` read
after seeding. -/
noncomputable def okPKvalues (co2dict : StrDict) (cur : Option StrDict)
    (kwarg wrt0 : String) : Arr :=
  (dget (okSeeded co2dict cur kwarg wrt0) (okStem kwarg wrt0)).map
    (fun v => -Real.logb 10 v)

/-- The array `Kvalues = co2kwargs_plus[kwarg][wrt_stem]` read after
seeding. -/
def okKvalues (co2dict : StrDict) (cur : Option StrDict) (kwarg wrt0 : String) : Arr :=
  dget (okSeeded co2dict cur kwarg wrt0) (okStem kwarg wrt0)

/-- Embedding of `_overridekwargs(co2dict, co2kwargs_plus, kwarg, wrt,
dx, dx_scaling, dx_func)`: seed the kwargs slot (`okSeeded`), then apply
the additive or cologarithm-space perturbation and return the updated
kwargs together with the realized step. -/
noncomputable def overridekwargs (co2dict : StrDict) (kw : Kwargs)
    (kwarg wrt0 : String) (dx : ℝ) (dx_scaling : String)
    (dx_func : Option (Arr → ℝ)) : Except Err (Kwargs × ℝ) :=
  if strStartsWith wrt0 "pK" then
    match getDxWrt dx (okPKvalues co2dict (getKwarg kw kwarg) kwarg wrt0) dx_scaling dx_func with
    | .error e => .error e
    | .ok dxw =>
      .ok (setKwarg kw kwarg
            (aupdate (okSeeded co2dict (getKwarg kw kwarg) kwarg wrt0) (okStem kwarg wrt0)
              (((okPKvalues co2dict (getKwarg kw kwarg) kwarg wrt0).map (fun p => p + dxw)).map
                (fun p => (10 : ℝ) ^ (-p)))), dxw)
  else
    match getDxWrt dx (okKvalues co2dict (getKwarg kw kwarg) kwarg wrt0) dx_scaling dx_func with
    | .error e => .error e
    | .ok dxw =>
      .ok (setKwarg kw kwarg
            (aupdate (okSeeded co2dict (getKwarg kw kwarg) kwarg wrt0) (okStem kwarg wrt0)
              ((okKvalues co2dict (getKwarg kw kwarg) kwarg wrt0).map (fun v => v + dxw))), dxw)

/-- Measurement inputs that can be perturbed directly (`inputs_wrt`). -/
def inputs_wrt : List String :=
  ["PAR1", "PAR2", "SAL", "TEMPIN", "TEMPOUT", "PRESIN", "PRESOUT",
   "SI", "PO4", "NH3", "H2S"]

/-- Total-salt override targets (`totals_wrt`). -/
def totals_wrt : List String := ["TB", "TF", "TSO4", "TCa"]

/-- Base names of the equilibrium-constant overrides (`Ks_wrt`). -/
def Ks_wrt : List String :=
  ["KSO4", "KF", "fH", "KB", "KW", "KP1", "KP2", "KP3", "KSi", "K1",
   "K2", "KH2S", "KNH3", "K0", "FugFac", "KCa", "KAr"]

/-- Input-condition constant targets: `{K}input` plus the appended
`RGas` (`Kis_wrt`). -/
def Kis_wrt : List String :=
  Ks_wrt.map (fun K => K ++ "input") ++ ["RGas"]

/-- Output-condition constant targets: `{K}output` plus the appended
`RGas` (`Kos_wrt`). -/
def Kos_wrt : List String :=
  Ks_wrt.map (fun K => K ++ "output") ++ ["RGas"]

/-- Cologarithm targets at input conditions (`pKis_wrt`): `p{K}input`
for the base names starting with `K`. -/
def pKis_wrt : List String :=
  (Ks_wrt.filter (fun K => strStartsWith K "K")).map (fun K => "p" ++ K ++ "input")

/-- Cologarithm targets at output conditions (`pKos_wrt`). -/
def pKos_wrt : List String :=
  (Ks_wrt.filter (fun K => strStartsWith K "K")).map (fun K => "p" ++ K ++ "output")

/-- The reserved group keywords (`groups_wrt`). -/
def groups_wrt : List String :=
  ["all", "measurements", "totals", "equilibria_in", "equilibria_out"]

/-- The full input vocabulary (`all_wrt`). -/
def all_wrt : List String :=
  inputs_wrt ++ totals_wrt ++ Kis_wrt ++ Kos_wrt ++ pKis_wrt ++ pKos_wrt

/-- A `grads_of`/`grads_wrt` argument: Python's `isinstance(x, str)`
dispatch distinguishes a bare string from a list of names. -/
inductive StrOrList where
  | str (s : String)
  | list (l : List String)

/-- The group-keyword expansion chain of `forward` (a non-group name
falls through to a singleton list). -/
def expandGroup (s : String) : List String :=
  if s = "all" then all_wrt
  else if s = "measurements" then inputs_wrt
  else if s = "totals" then totals_wrt
  else if s = "equilibria_in" then Kis_wrt
  else if s = "equilibria_out" then Kos_wrt
  else [s]

/-- Normalization of `grads_wrt`: a bare string is asserted to be in
`all_wrt + groups_wrt` and expanded; a list passes through (its elements
are checked by the subsequent `np.isin` assert in `forwardAux`). -/
def normWrt (grads_wrt : StrOrList) : Except Err (List String) :=
  match grads_wrt with
  | .str s =>
    if s ∈ all_wrt ++ groups_wrt then .ok (expandGroup s)
    else .error (Err.assertion "grads_wrt")
  | .list l => .ok l

/-- Normalization of `grads_of` against the solver-declared gradable
list: a bare string is asserted to be `"all"` or gradable; `"all"`
expands to the whole gradable list. -/
def normOf (gradables : List String) (grads_of : StrOrList) :
    Except Err (List String) :=
  match grads_of with
  | .str s =>
    if s ∈ "all" :: gradables then
      .ok (if s = "all" then gradables else [s])
    else .error (Err.assertion "grads_of")
  | .list l => .ok l

/-- The fixed argument names copied from the baseline `co2dict` into
`co2args`. -/
def co2argNames : List String :=
  ["PAR1", "PAR2", "PAR1TYPE", "PAR2TYPE", "SAL", "TEMPIN", "TEMPOUT",
   "PRESIN", "PRESOUT", "SI", "PO4", "NH3", "H2S", "pHSCALEIN",
   "K1K2CONSTANTS", "KSO4CONSTANT", "KFCONSTANT", "BORON",
   "buffers_mode", "WhichR"]

/-- Assemble `co2args` from the baseline result (option flags such as
`buffers_mode` are carried opaquely as `Arr` values; the engine never
inspects them). -/
def buildArgs (co2dict : StrDict) : StrDict :=
  co2argNames.map (fun a => (a, dget co2dict a))

/-- Assemble `co2kwargs` from the baseline result and the caller's
override dicts. -/
def buildKwargs (co2dict : StrDict) (totals equilibria_in equilibria_out : Option StrDict) :
    Kwargs :=
  ⟨dget co2dict "KSO4CONSTANTS", totals, equilibria_in, equilibria_out⟩

/-- One perturbation step of the `forward` loop body (the `if`/`elif`
chain over the target classes).  Returns the perturbed `co2args_plus`,
`co2kwargs_plus`, and `some dx_wrt` when a branch assigned the step —
`none` when no branch matched (which happens exactly for the
`pKos_wrt` names, mirroring the missing `elif` in the source). -/
noncomputable def perturbTarget (co2dict co2args : StrDict) (kw : Kwargs)
    (dx : ℝ) (dx_scaling : String) (dx_func : Option (Arr → ℝ))
    (wrt : String) : Except Err (StrDict × Kwargs × Option ℝ) :=
  if wrt ∈ inputs_wrt then
    match getDxWrt dx [nanmedian (dget co2args wrt)] dx_scaling dx_func with
    | .error e => .error e
    | .ok dxw =>
      .ok (aupdate co2args wrt ((dget co2args wrt).map (fun v => v + dxw)), kw, some dxw)
  else if wrt ∈ totals_wrt then
    match overridekwargs co2dict kw "totals" wrt dx dx_scaling dx_func with
    | .error e => .error e
    | .ok (kw', dxw) => .ok (co2args, kw', some dxw)
  else if wrt ∈ Kis_wrt then
    match overridekwargs co2dict kw "equilibria_in" wrt dx dx_scaling dx_func with
    | .error e => .error e
    | .ok (kw', dxw) => .ok (co2args, kw', some dxw)
  else if wrt ∈ pKis_wrt then
    match overridekwargs co2dict kw "equilibria_in" wrt dx dx_scaling dx_func with
    | .error e => .error e
    | .ok (kw', dxw) => .ok (co2args, kw', some dxw)
  else if wrt ∈ Kos_wrt then
    match overridekwargs co2dict kw "equilibria_out" wrt dx dx_scaling dx_func with
    | .error e => .error e
    | .ok (kw', dxw) => .ok (co2args, kw', some dxw)
  else
    .ok (co2args, kw, none)

/-- The bare storage key that a given target perturbs, following the
same classification chain as the loop body: measurement targets perturb
their own argument, override targets perturb `okStem` of their group. -/
def stemOf (wrt : String) : String :=
  if wrt ∈ inputs_wrt then wrt
  else if wrt ∈ totals_wrt then okStem "totals" wrt
  else if wrt ∈ Kis_wrt then okStem "equilibria_in" wrt
  else if wrt ∈ pKis_wrt then okStem "equilibria_in" wrt
  else if wrt ∈ Kos_wrt then okStem "equilibria_out" wrt
  else wrt

/-- The non-contamination frame property of one solver invocation: the
call agrees with the baseline on every plain argument other than the
target itself, on the `KSO4CONSTANTS` pass-through, and on every
override key other than the target's bare storage key, in all three
override groups. -/
def agreesExceptTarget (base call : StrDict × Kwargs) (wrt : String) : Prop :=
  (∀ a, a ≠ wrt → alookup call.1 a = alookup base.1 a) ∧
  call.2.KSO4CONSTANTS = base.2.KSO4CONSTANTS ∧
  ∀ g ∈ (["totals", "equilibria_in", "equilibria_out"] : List String),
    ∀ k, k ≠ stemOf wrt →
      olookup (getKwarg call.2 g) k = olookup (getKwarg base.2 g) k

/-- The derivative table `{of: {wrt: None | array}}`. -/
abbrev DerivTable := List (String × List (String × Option Arr))

/-- The realized-step table `{wrt: None | dx_wrt}`. -/
abbrev Steps := List (String × Option ℝ)

/-- One argument set passed to the external solver. -/
abbrev Call := StrDict × Kwargs

/-- Preallocated derivative table: `None` for every requested pair. -/
def preDerivs (grads_of grads_wrt : List String) : DerivTable :=
  grads_of.map (fun of => (of, grads_wrt.map (fun w => (w, (none : Option Arr)))))

/-- Preallocated step table. -/
def preSteps (grads_wrt : List String) : Steps :=
  grads_wrt.map (fun w => (w, (none : Option ℝ)))

/-- Elementwise forward difference `(plus - base) / dx_wrt`. -/
noncomputable def derivArr (plus base : Arr) (dxw : ℝ) : Arr :=
  List.zipWith (fun p b => (p - b) / dxw) plus base

/-- The inner `for of in grads_of` loop: fill `co2derivs[of][wrt]` with
the forward difference unless a derivative is already present (the
"don't overwrite existing derivatives" guard). -/
noncomputable def updateDerivs (derivs : DerivTable) (grads_of : List String)
    (co2dict plus : StrDict) (wrt : String) (dxw : ℝ) : DerivTable :=
  grads_of.foldl
    (fun dv of =>
      match alookup dv of with
      | some row =>
        match alookup row wrt with
        | some none =>
          aupdate dv of (aupdate row wrt (some (derivArr (dget plus of) (dget co2dict of) dxw)))
        | _ => dv
      | none => dv)
    derivs

/-- The `for wrt in grads_wrt` loop of `forward`.  Each iteration starts
from the same baseline `co2args`/`co2kwargs` (the source deep-copies the
fixed dicts anew for every target), perturbs, invokes the solver (the
invocation is recorded in the returned trace), then stores the realized
step and the finite differences.  `dxPrev` threads the Python local
`dx_wrt` across iterations: when no branch assigned it and no earlier
iteration set it, reading it raises `UnboundLocalError`. -/
noncomputable def forwardLoop (solver : StrDict → Kwargs → Except Err StrDict)
    (co2dict co2args : StrDict) (kw : Kwargs) (grads_of : List String)
    (dx : ℝ) (dx_scaling : String) (dx_func : Option (Arr → ℝ)) :
    List String → DerivTable → Steps → Option ℝ →
    Except Err (DerivTable × Steps) × List Call
  | [], derivs, dxs, _ => (.ok (derivs, dxs), [])
  | wrt :: rest, derivs, dxs, dxPrev =>
    match perturbTarget co2dict co2args kw dx dx_scaling dx_func wrt with
    | .error e => (.error e, [])
    | .ok (argsP, kwP, dxNew) =>
      match solver argsP kwP with
      | .error e => (.error e, [(argsP, kwP)])
      | .ok plus =>
        match (match dxNew with | some v => some v | none => dxPrev) with
        | none => (.error Err.unboundLocal, [(argsP, kwP)])
        | some dxw =>
          let derivs' := updateDerivs derivs grads_of co2dict plus wrt dxw
          let dxs' := aupdate dxs wrt (some dxw)
          let out := forwardLoop solver co2dict co2args kw grads_of dx dx_scaling dx_func
            rest derivs' dxs' (some dxw)
          (out.1, (argsP, kwP) :: out.2)

/-- Embedding of `forward(co2dict, grads_of, grads_wrt, totals,
equilibria_in, equilibria_out, dx, dx_scaling, dx_func)`, with the
external solver and the gradable-output registry as parameters.
Returns the `(co2derivs, dxs)` pair (or the first error) together with
the trace of solver invocations. -/
noncomputable def forwardAux (solver : StrDict → Kwargs → Except Err StrDict)
    (gradables : List String) (co2dict : StrDict)
    (grads_of grads_wrt : StrOrList)
    (totals equilibria_in equilibria_out : Option StrDict)
    (dx : ℝ) (dx_scaling : String) (dx_func : Option (Arr → ℝ)) :
    Except Err (DerivTable × Steps) × List Call :=
  match normWrt grads_wrt with
  | .error e => (.error e, [])
  | .ok gwrt =>
    if ∀ w ∈ gwrt, w ∈ all_wrt then
      match normOf gradables grads_of with
      | .error e => (.error e, [])
      | .ok gof =>
        if ∀ o ∈ gof, o ∈ gradables then
          if 0 < dx then
            forwardLoop solver co2dict (buildArgs co2dict)
              (buildKwargs co2dict totals equilibria_in equilibria_out)
              gof dx dx_scaling dx_func gwrt (preDerivs gof gwrt) (preSteps gwrt) none
          else (.error (Err.assertion "dx"), [])
        else (.error (Err.assertion "grads_of"), [])
    else (.error (Err.assertion "grads_wrt"), [])

/-- The caller-facing `forward`: same computation, trace discarded. -/
noncomputable def forward (solver : StrDict → Kwargs → Except Err StrDict)
    (gradables : List String) (co2dict : StrDict)
    (grads_of grads_wrt : StrOrList)
    (totals equilibria_in equilibria_out : Option StrDict)
    (dx : ℝ) (dx_scaling : String) (dx_func : Option (Arr → ℝ)) :
    Except Err (DerivTable × Steps) :=
  (forwardAux solver gradables co2dict grads_of grads_wrt totals
    equilibria_in equilibria_out dx dx_scaling dx_func).1

/-- Modelled from the spec: `engine.condition` (not under `src/`)
broadcasts each caller-supplied uncertainty magnitude "to the result's
sample count" — a scalar (singleton) entry is repeated once per sample
point, a per-sample array is left as given. -/
def condition (uncertainties_from : StrDict) (npts : Nat) : StrDict :=
  uncertainties_from.map
    (fun p => (p.1, if p.2.length = 1 then List.replicate npts (p.2.headD 0) else p.2))

/-- Read the computed derivative array `co2derivs[of][wrt]` (`[]` when
absent or still `None`; Python would raise there, and successful
`forward` runs fill every requested pair). -/
def derivOf (derivs : DerivTable) (of wrt : String) : Arr :=
  match alookup derivs of with
  | some row =>
    match alookup row wrt with
    | some (some a) => a
    | _ => []
  | none => []

/-- Elementwise sum of a stack of arrays (`np.sum(..., axis=0)`). -/
def sumAxis0 : List Arr → Arr
  | [] => []
  | a :: rest => rest.foldl (fun acc b => List.zipWith (fun x y => x + y) acc b) a

/-- Root-sum-of-squares across sources, elementwise over the sample
axis: `np.sqrt(np.sum(np.array(components) ** 2, axis=0))`. -/
noncomputable def rssTotal (components : List Arr) : Arr :=
  (sumAxis0 (components.map (fun c => c.map (fun x => x ^ 2)))).map Real.sqrt

/-- Embedding of `propagate(co2dict, uncertainties_into,
uncertainties_from, ...)`: one `forward` call over the full
cross-product, then per-source components `|derivative| * magnitude`
and root-sum-of-squares totals.  `uncertainties_from` is a dict whose
keys are the gradient targets (Python `list(dict)` is its key list). -/
noncomputable def propagate (solver : StrDict → Kwargs → Except Err StrDict)
    (gradables : List String) (co2dict : StrDict)
    (uncertainties_into : List String) (uncertainties_from : StrDict)
    (totals equilibria_in equilibria_out : Option StrDict)
    (dx : ℝ) (dx_scaling : String) (dx_func : Option (Arr → ℝ)) :
    Except Err (List (String × Arr) × List (String × List (String × Arr))) :=
  match forward solver gradables co2dict (.list uncertainties_into)
      (.list (uncertainties_from.map Prod.fst)) totals equilibria_in
      equilibria_out dx dx_scaling dx_func with
  | .error e => .error e
  | .ok (co2derivs, _) =>
    let npts := (dget co2dict "PAR1").length
    let ufrom := condition uncertainties_from npts
    let components := uncertainties_into.map (fun u_into =>
      (u_into, ufrom.map (fun p =>
        (p.1, List.zipWith (fun d m => |d| * m) (derivOf co2derivs u_into p.1) p.2))))
    let uncertainties := uncertainties_into.map (fun u_into =>
      (u_into, rssTotal (((alookup components u_into).getD []).map Prod.snd)))
    .ok (uncertainties, components)

/-- A request the registry must reject, or a non-positive step: some
requested gradient target outside the input vocabulary (for a bare
string, outside vocabulary and group keywords), some requested output
outside the gradable list (for a bare string, also not `"all"`), or
`dx ≤ 0`. -/
def badRequest (gradables : List String) (grads_of grads_wrt : StrOrList) (dx : ℝ) : Prop :=
  (match grads_wrt with
   | .str s => s ∉ all_wrt ++ groups_wrt
   | .list l => ∃ w ∈ l, w ∉ all_wrt) ∨
  (match grads_of with
   | .str s => s ∉ "all" :: gradables
   | .list l => ∃ o ∈ l, o ∉ gradables) ∨
  dx ≤ 0

/-- A trivial deterministic solver stub, for concrete instances. -/
def stub0 : StrDict → Kwargs → Except Err StrDict := fun _ _ => .ok []

/-- The solver call produced by perturbing `"SAL"` from an empty
baseline dict, for concrete instances. -/
def call0 : Call :=
  (aupdate (buildArgs []) "SAL" [], buildKwargs [] none none none)

/-- The kwargs produced by perturbing `"pK1input"` from the baseline
`{"K1input": [1]}` with an empty accumulator and unit step, for concrete
instances. -/
noncomputable def kwC4 : Kwargs :=
  ⟨[], none, some [("K1", [(10 : ℝ) ^ (-(-Real.logb 10 1 + 1))])], none⟩

/-! Lemmas about the dict model. -/

theorem alookup_aupdate_self {α : Type} (d : List (String × α)) (k : String) (v : α) :
    alookup (aupdate d k v) k = some v := by
  induction d with
  | nil => simp [aupdate, alookup]
  | cons p rest ih =>
    obtain ⟨k', v'⟩ := p
    by_cases h : k' = k
    · simp [aupdate, alookup, h]
    · simp [aupdate, alookup, h, ih]

theorem alookup_aupdate_ne {α : Type} (d : List (String × α)) (k k' : String) (v : α)
    (h : k' ≠ k) :
    alookup (aupdate d k v) k' = alookup d k' := by
  induction d with
  | nil => simp [aupdate, alookup, Ne.symm h]
  | cons p rest ih =>
    obtain ⟨k'', v'⟩ := p
    by_cases hk : k'' = k
    · simp [aupdate, alookup, hk, Ne.symm h]
    · simp [aupdate, alookup, hk, ih]

theorem KSO4CONSTANTS_setKwarg (kw : Kwargs) (g : String) (d : StrDict) :
    (setKwarg kw g d).KSO4CONSTANTS = kw.KSO4CONSTANTS := by
  unfold setKwarg
  split_ifs <;> rfl

theorem getKwarg_setKwarg_ne (kw : Kwargs) (g g' : String) (d : StrDict) (h : g' ≠ g) :
    getKwarg (setKwarg kw g d) g' = getKwarg kw g' := by
  unfold getKwarg setKwarg
  split_ifs <;> simp_all

theorem getKwarg_setKwarg_self (kw : Kwargs) (g : String) (d : StrDict)
    (hg : g ∈ (["totals", "equilibria_in", "equilibria_out"] : List String)) :
    getKwarg (setKwarg kw g d) g = some d := by
  fin_cases hg <;> rfl

theorem okSeeded_alookup_ne (co2dict : StrDict) (cur : Option StrDict)
    (kwarg wrt0 k : String) (hk : k ≠ okStem kwarg wrt0) :
    alookup (okSeeded co2dict cur kwarg wrt0) k = olookup cur k := by
  unfold okSeeded
  cases cur with
  | none =>
    simp only [olookup, Option.bind]
    split_ifs <;>
      simp [alookup, alookup_aupdate_ne _ _ _ _ hk, Ne.symm hk]
  | some d =>
    simp only [olookup, Option.bind]
    split_ifs <;> simp [alookup_aupdate_ne _ _ _ _ hk]

/-! Lemmas about the override builder. -/

theorem overridekwargs_ok_shape (co2dict : StrDict) (kw : Kwargs) (kwarg wrt0 : String)
    (dx : ℝ) (sc : String) (df : Option (Arr → ℝ)) (kw' : Kwargs) (dxw : ℝ)
    (h : overridekwargs co2dict kw kwarg wrt0 dx sc df = .ok (kw', dxw)) :
    ∃ vals : Arr,
      kw' = setKwarg kw kwarg
        (aupdate (okSeeded co2dict (getKwarg kw kwarg) kwarg wrt0) (okStem kwarg wrt0) vals) := by
  unfold overridekwargs at h
  split at h
  · split at h
    · exact Except.noConfusion h
    · simp only [Except.ok.injEq, Prod.mk.injEq] at h
      exact ⟨_, h.1.symm⟩
  · split at h
    · exact Except.noConfusion h
    · simp only [Except.ok.injEq, Prod.mk.injEq] at h
      exact ⟨_, h.1.symm⟩

theorem overridekwargs_frame (co2dict : StrDict) (kw : Kwargs) (kwarg wrt0 : String)
    (dx : ℝ) (sc : String) (df : Option (Arr → ℝ)) (kw' : Kwargs) (dxw : ℝ)
    (hg : kwarg ∈ (["totals", "equilibria_in", "equilibria_out"] : List String))
    (h : overridekwargs co2dict kw kwarg wrt0 dx sc df = .ok (kw', dxw)) :
    kw'.KSO4CONSTANTS = kw.KSO4CONSTANTS ∧
    (∀ g, g ≠ kwarg → getKwarg kw' g = getKwarg kw g) ∧
    (∀ k, k ≠ okStem kwarg wrt0 →
      olookup (getKwarg kw' kwarg) k = olookup (getKwarg kw kwarg) k) := by
  obtain ⟨vals, hshape⟩ := overridekwargs_ok_shape co2dict kw kwarg wrt0 dx sc df kw' dxw h
  subst hshape
  refine ⟨KSO4CONSTANTS_setKwarg kw kwarg _, fun g hgne => getKwarg_setKwarg_ne kw kwarg g _ hgne, fun k hk => ?_⟩
  rw [getKwarg_setKwarg_self kw kwarg _ hg]
  simp only [olookup, Option.bind]
  rw [alookup_aupdate_ne _ _ _ _ hk]
  exact okSeeded_alookup_ne co2dict (getKwarg kw kwarg) kwarg wrt0 k hk

theorem agrees_of_override (co2dict co2args : StrDict) (kw kw' : Kwargs)
    (kwarg wrt : String) (dx : ℝ) (sc : String) (df : Option (Arr → ℝ)) (dxw : ℝ)
    (hg : kwarg ∈ (["totals", "equilibria_in", "equilibria_out"] : List String))
    (hstem : stemOf wrt = okStem kwarg wrt)
    (h : overridekwargs co2dict kw kwarg wrt dx sc df = .ok (kw', dxw)) :
    agreesExceptTarget (co2args, kw) (co2args, kw') wrt := by
  obtain ⟨hK, hOther, hSame⟩ :=
    overridekwargs_frame co2dict kw kwarg wrt dx sc df kw' dxw hg h
  refine ⟨fun a _ => rfl, hK, fun g _ k hk => ?_⟩
  by_cases hgk : g = kwarg
  · subst hgk
    rw [hstem] at hk
    exact hSame k hk
  · rw [hOther g hgk]

theorem perturbTarget_frame (co2dict co2args : StrDict) (kw : Kwargs) (dx : ℝ)
    (sc : String) (df : Option (Arr → ℝ)) (wrt : String)
    (out : StrDict × Kwargs × Option ℝ)
    (h : perturbTarget co2dict co2args kw dx sc df wrt = .ok out) :
    agreesExceptTarget (co2args, kw) (out.1, out.2.1) wrt := by
  unfold perturbTarget at h
  split at h
  next hin =>
    split at h
    next => exact Except.noConfusion h
    next dxw heq =>
      simp only [Except.ok.injEq] at h
      subst h
      exact ⟨fun a ha => alookup_aupdate_ne _ _ _ _ ha, rfl, fun g _ k _ => rfl⟩
  next hin =>
    split at h
    next htot =>
      split at h
      next => exact Except.noConfusion h
      next kw' dxw heq =>
        simp only [Except.ok.injEq] at h
        subst h
        exact agrees_of_override co2dict co2args kw kw' "totals" wrt dx sc df dxw
          (by simp) (by simp [stemOf, hin, htot]) heq
    next htot =>
      split at h
      next hkis =>
        split at h
        next => exact Except.noConfusion h
        next kw' dxw heq =>
          simp only [Except.ok.injEq] at h
          subst h
          exact agrees_of_override co2dict co2args kw kw' "equilibria_in" wrt dx sc df dxw
            (by simp) (by simp [stemOf, hin, htot, hkis]) heq
      next hkis =>
        split at h
        next hpkis =>
          split at h
          next => exact Except.noConfusion h
          next kw' dxw heq =>
            simp only [Except.ok.injEq] at h
            subst h
            exact agrees_of_override co2dict co2args kw kw' "equilibria_in" wrt dx sc df dxw
              (by simp) (by simp [stemOf, hin, htot, hkis, hpkis]) heq
        next hpkis =>
          split at h
          next hkos =>
            split at h
            next => exact Except.noConfusion h
            next kw' dxw heq =>
              simp only [Except.ok.injEq] at h
              subst h
              exact agrees_of_override co2dict co2args kw kw' "equilibria_out" wrt dx sc df dxw
                (by simp) (by simp [stemOf, hin, htot, hkis, hpkis, hkos]) heq
          next hkos =>
            simp only [Except.ok.injEq] at h
            subst h
            exact ⟨fun a _ => rfl, rfl, fun g _ k _ => rfl⟩

theorem forwardLoop_trace_mem (solver : StrDict → Kwargs → Except Err StrDict)
    (co2dict co2args : StrDict) (kw : Kwargs) (gof : List String)
    (dx : ℝ) (sc : String) (df : Option (Arr → ℝ)) :
    ∀ (l : List String) (derivs : DerivTable) (dxs : Steps) (dxPrev : Option ℝ),
      ∀ call ∈ (forwardLoop solver co2dict co2args kw gof dx sc df l derivs dxs dxPrev).2,
        ∃ wrt ∈ l, ∃ dopt,
          perturbTarget co2dict co2args kw dx sc df wrt = .ok (call.1, call.2, dopt) := by
  intro l
  induction l with
  | nil =>
    intro derivs dxs dxPrev call hc
    simp [forwardLoop] at hc
  | cons wrt rest ih =>
    intro derivs dxs dxPrev call hc
    rw [forwardLoop] at hc
    split at hc
    next => simp at hc
    next argsP kwP dxNew heq =>
      split at hc
      next =>
        simp only [List.mem_singleton] at hc
        subst hc
        exact ⟨wrt, by simp, dxNew, heq⟩
      next plus hsolve =>
        split at hc
        next =>
          simp only [List.mem_singleton] at hc
          subst hc
          exact ⟨wrt, by simp, dxNew, heq⟩
        next dxw hdxw =>
          simp only [List.mem_cons] at hc
          cases hc with
          | inl hc =>
            subst hc
            exact ⟨wrt, by simp, dxNew, heq⟩
          | inr hc =>
            obtain ⟨w, hw, d, hp⟩ := ih _ _ _ call hc
            exact ⟨w, by simp [hw], d, hp⟩

/-- C6: in a single `forward` call over a batch of input targets, every
solver invocation in the batch is produced by perturbing exactly one
requested target starting from the baseline arguments and the caller's
baseline overrides (so perturbing target A can never alter or persist
anything into target B's invocation), and each invocation agrees with
the baseline on every plain argument and every override key other than
the one belonging to the target currently under perturbation.  Caller
structures are immutable values in this embedding, matching the
source's deep copies of the fixed argument dicts for every target. -/
theorem forward_no_contamination (solver : StrDict → Kwargs → Except Err StrDict)
    (gradables : List String) (co2dict : StrDict) (grads_of : StrOrList)
    (l : List String) (totals equilibria_in equilibria_out : Option StrDict)
    (dx : ℝ) (sc : String) (df : Option (Arr → ℝ)) (call : Call)
    (hcall : call ∈ (forwardAux solver gradables co2dict grads_of (.list l)
      totals equilibria_in equilibria_out dx sc df).2) :
    ∃ wrt ∈ l,
      (∃ dopt, perturbTarget co2dict (buildArgs co2dict)
        (buildKwargs co2dict totals equilibria_in equilibria_out) dx sc df wrt
          = .ok (call.1, call.2, dopt)) ∧
      agreesExceptTarget
        (buildArgs co2dict, buildKwargs co2dict totals equilibria_in equilibria_out)
        call wrt := by
  unfold forwardAux at hcall
  simp only [normWrt] at hcall
  split at hcall
  next hall =>
    split at hcall
    next e heq => simp at hcall
    next gof heq =>
      split at hcall
      next hgof =>
        split at hcall
        next hdx =>
          obtain ⟨wrt, hw, dopt, hp⟩ :=
            forwardLoop_trace_mem solver co2dict _ _ gof dx sc df l _ _ none call hcall
          refine ⟨wrt, hw, ⟨dopt, hp⟩, ?_⟩
          have hfr := perturbTarget_frame co2dict _ _ dx sc df wrt _ hp
          simpa using hfr
        next => simp at hcall
      next => simp at hcall
  next => simp at hcall

/-- C7: for every base step `dx > 0` and every value array, the
step-size policy returns `dx` unchanged in `"none"` mode; in `"median"`
mode it returns `dx` unchanged when the median of the values is exactly
zero and `dx * |median|` otherwise; and in `"custom"` mode it returns
`dx_func(values)`. -/
theorem getDxWrt_modes (dx : ℝ) (var : Arr) (f : Arr → ℝ) (df : Option (Arr → ℝ))
    (_hdx : 0 < dx) :
    getDxWrt dx var "none" df = .ok dx ∧
    (nanmedian var = 0 → getDxWrt dx var "median" df = .ok dx) ∧
    (nanmedian var ≠ 0 → getDxWrt dx var "median" df = .ok (dx * |nanmedian var|)) ∧
    getDxWrt dx var "custom" (some f) = .ok (f var) := by
  refine ⟨rfl, fun h => ?_, fun h => ?_, rfl⟩
  · simp [getDxWrt, h]
  · simp [getDxWrt, h]

theorem getDxWrt_modes_witness :
    (0 : ℝ) < 2 ∧
    getDxWrt 2 [(0 : ℝ)] "median" none = .ok 2 ∧
    getDxWrt 2 [(3 : ℝ)] "median" none = .ok (2 * |nanmedian [(3 : ℝ)]|) :=
  ⟨by norm_num,
   (getDxWrt_modes 2 [(0 : ℝ)] (fun _ => 0) none (by norm_num)).2.1 rfl,
   (getDxWrt_modes 2 [(3 : ℝ)] (fun _ => 0) none (by norm_num)).2.2.1
     (by rw [show nanmedian [(3 : ℝ)] = 3 from rfl]; norm_num)⟩

/-- C8 counterexample: `_get_dx_wrt` does not fail for a non-positive
base step — with `base_dx = -1` and a valid mode it returns the step
`-1` instead of raising a configuration error. -/
theorem getDxWrt_no_dx_check :
    getDxWrt (-1) [(1 : ℝ)] "none" none = .ok (-1) := rfl

/-- C8 amended: the step-size policy fails with the configuration
assert exactly when the scaling mode is not one of `"none"`,
`"median"`, `"custom"`; it performs no check on the base step itself
(a step is returned even for `base_dx ≤ 0`) — the `dx > 0` check is
enforced by `forward` before the loop, not by `_get_dx_wrt`. -/
theorem getDxWrt_config (mode : String) (dx : ℝ) (var : Arr) (df : Option (Arr → ℝ))
    (hm : mode ∉ (["none", "median", "custom"] : List String)) :
    getDxWrt dx var mode df = .error (Err.assertion "dx_scaling") ∧
    ∀ dx' : ℝ, dx' ≤ 0 → getDxWrt dx' var "none" df = .ok dx' := by
  refine ⟨?_, fun dx' _ => rfl⟩
  unfold getDxWrt
  rw [if_neg hm]

theorem getDxWrt_config_witness :
    ("bogus" ∉ (["none", "median", "custom"] : List String)) ∧
    getDxWrt 1 [(1 : ℝ)] "bogus" none = .error (Err.assertion "dx_scaling") ∧
    getDxWrt (-1) [(1 : ℝ)] "none" none = .ok (-1) := by
  have h := getDxWrt_config "bogus" 1 [(1 : ℝ)] none (by decide)
  exact ⟨by decide, h.1, h.2 (-1) (by norm_num)⟩

/-- C2: the membership test `wrt not in co2kwargs_plus[kwarg]` uses the
suffixed name while the accumulator is keyed by the bare stem, so for
the equilibria groups it always succeeds and the caller-supplied
override value for the bare key is replaced by the baseline-result
value.  Here the caller supplied `equilibria_in = {"K1": [5]}` and the
baseline has `K1input = [2]`; perturbing `"K1input"` with unit step and
no scaling bases the perturbation on the baseline `2` (giving `3`), not
on the caller's `5` (which would give `6`). -/
theorem overridekwargs_replaces_caller_override :
    overridekwargs [("K1input", [2])] ⟨[], none, some [("K1", [5])], none⟩
      "equilibria_in" "K1input" 1 "none" none
      = .ok (⟨[], none, some [("K1", [(3 : ℝ)])], none⟩, 1) := by
  have h : overridekwargs [("K1input", [2])] ⟨[], none, some [("K1", [5])], none⟩
      "equilibria_in" "K1input" 1 "none" none
      = .ok (⟨[], none, some [("K1", [(2 : ℝ) + 1])], none⟩, 1) := rfl
  rw [h]
  norm_num

/-- The value stored at the bare stem after a cologarithm perturbation:
converting to cologarithm space, adding the realized step, converting
back. -/
theorem overridekwargs_pK_value (co2dict : StrDict) (kw : Kwargs) (kwarg wrt0 : String)
    (dx : ℝ) (sc : String) (df : Option (Arr → ℝ)) (kw' : Kwargs) (dxw : ℝ)
    (hpk : strStartsWith wrt0 "pK" = true)
    (hg : kwarg ∈ (["totals", "equilibria_in", "equilibria_out"] : List String))
    (h : overridekwargs co2dict kw kwarg wrt0 dx sc df = .ok (kw', dxw)) :
    olookup (getKwarg kw' kwarg) (okStem kwarg wrt0)
      = some ((okKvalues co2dict (getKwarg kw kwarg) kwarg wrt0).map
          (fun v => (10 : ℝ) ^ (-(-Real.logb 10 v + dxw)))) := by
  unfold overridekwargs at h
  rw [if_pos hpk] at h
  split at h
  next => exact Except.noConfusion h
  next dxw' heq =>
    simp only [Except.ok.injEq, Prod.mk.injEq] at h
    obtain ⟨hkw, hdx⟩ := h
    subst hdx
    subst hkw
    rw [getKwarg_setKwarg_self _ _ _ hg]
    simp only [olookup, Option.bind]
    rw [alookup_aupdate_self]
    simp [okPKvalues, okKvalues, List.map_map, Function.comp]

/-- After seeding, the value at the bare stem is always the
baseline-result value when the accumulator has no entry under the
suffixed name. -/
theorem okKvalues_baseline (co2dict : StrDict) (cur : Option StrDict) (kwarg wrt0 : String)
    (hcur : olookup cur (okWrt wrt0) = none) :
    okKvalues co2dict cur kwarg wrt0 = dget co2dict (okWrt wrt0) := by
  cases cur with
  | none =>
    simp only [okKvalues, okSeeded]
    split_ifs <;> simp [dget, alookup, alookup_aupdate_self]
  | some d =>
    simp only [olookup, Option.bind] at hcur
    simp only [okKvalues, okSeeded]
    rw [hcur]
    simp [dget, alookup_aupdate_self]

/-- C4: for every cologarithm target over a constant with baseline
value `v`, the override builder realizes the perturbed constant value
`10 ^ (-(-log10 v + dx_realized))` — cologarithm space, step added
there, converted back — and for positive `v` and positive realized step
this is never the additive perturbation `v + dx_realized`. -/
theorem overridekwargs_cologarithm :
    (∀ wrt0 ∈ pKis_wrt ++ pKos_wrt,
      ∀ (co2dict : StrDict) (kw : Kwargs) (kwarg : String)
        (dx : ℝ) (sc : String) (df : Option (Arr → ℝ)) (kw' : Kwargs) (dxw : ℝ),
        kwarg ∈ (["equilibria_in", "equilibria_out"] : List String) →
        olookup (getKwarg kw kwarg) (okWrt wrt0) = none →
        overridekwargs co2dict kw kwarg wrt0 dx sc df = .ok (kw', dxw) →
        olookup (getKwarg kw' kwarg) (okStem kwarg wrt0)
          = some ((dget co2dict (okWrt wrt0)).map
              (fun v => (10 : ℝ) ^ (-(-Real.logb 10 v + dxw))))) ∧
    ∀ v dxw : ℝ, 0 < v → 0 < dxw →
      (10 : ℝ) ^ (-(-Real.logb 10 v + dxw)) ≠ v + dxw := by
  constructor
  · intro wrt0 hw co2dict kw kwarg dx sc df kw' dxw hkg hcur h
    have hpk : strStartsWith wrt0 "pK" = true :=
      (by decide : ∀ w ∈ pKis_wrt ++ pKos_wrt, strStartsWith w "pK" = true) wrt0 hw
    have hg3 : kwarg ∈ (["totals", "equilibria_in", "equilibria_out"] : List String) := by
      fin_cases hkg <;> simp
    rw [overridekwargs_pK_value co2dict kw kwarg wrt0 dx sc df kw' dxw hpk hg3 h]
    rw [okKvalues_baseline co2dict _ kwarg wrt0 hcur]
  · intro v dxw hv hd
    have hrw : (10 : ℝ) ^ (-(-Real.logb 10 v + dxw)) = v * (10 : ℝ) ^ (-dxw) := by
      rw [neg_add, neg_neg, Real.rpow_add (by norm_num),
        Real.rpow_logb (by norm_num) (by norm_num) hv]
    rw [hrw]
    have hlt : (10 : ℝ) ^ (-dxw) < 1 :=
      Real.rpow_lt_one_of_one_lt_of_neg (by norm_num) (neg_lt_zero.mpr hd)
    have hmul : v * (10 : ℝ) ^ (-dxw) < v := mul_lt_of_lt_one_right hv hlt
    intro heq
    linarith

theorem overridekwargs_cologarithm_witness :
    olookup (getKwarg kwC4 "equilibria_in") (okStem "equilibria_in" "pK1input")
      = some ((dget [("K1input", [1])] (okWrt "pK1input")).map
          (fun v => (10 : ℝ) ^ (-(-Real.logb 10 v + 1)))) ∧
    (10 : ℝ) ^ (-(-Real.logb 10 1 + 1)) ≠ 1 + 1 := by
  constructor
  · exact overridekwargs_cologarithm.1 "pK1input" (by decide)
      [("K1input", [1])] ⟨[], none, none, none⟩ "equilibria_in" 1 "none" none kwC4 1
      (by simp) rfl rfl
  · exact overridekwargs_cologarithm.2 1 1 one_pos one_pos

/-- C3: whenever a requested output name is outside the gradable list,
or a requested input name is outside the vocabulary (and, for a bare
string, the group keywords), or `dx ≤ 0`, the call fails before the
external solver is invoked even once — the invocation trace stays empty
and an error is returned instead of any partial derivative table. -/
theorem forward_fails_before_solver (solver : StrDict → Kwargs → Except Err StrDict)
    (gradables : List String) (co2dict : StrDict) (grads_of grads_wrt : StrOrList)
    (totals equilibria_in equilibria_out : Option StrDict)
    (dx : ℝ) (sc : String) (df : Option (Arr → ℝ))
    (h : badRequest gradables grads_of grads_wrt dx) :
    (forwardAux solver gradables co2dict grads_of grads_wrt totals equilibria_in
      equilibria_out dx sc df).2 = [] ∧
    ∃ e, (forwardAux solver gradables co2dict grads_of grads_wrt totals equilibria_in
      equilibria_out dx sc df).1 = .error e := by
  unfold forwardAux
  cases hnw : normWrt grads_wrt with
  | error e => exact ⟨rfl, e, rfl⟩
  | ok gwrt =>
    dsimp only
    by_cases hall : ∀ w ∈ gwrt, w ∈ all_wrt
    · rw [if_pos hall]
      cases hno : normOf gradables grads_of with
      | error e => exact ⟨rfl, e, rfl⟩
      | ok gof =>
        dsimp only
        by_cases hgof : ∀ o ∈ gof, o ∈ gradables
        · rw [if_pos hgof]
          have hdx : ¬ 0 < dx := by
            rcases h with h | h | h
            · exfalso
              cases grads_wrt with
              | str s =>
                simp only [normWrt] at hnw
                rw [if_neg h] at hnw
                exact Except.noConfusion hnw
              | list l =>
                simp only [normWrt, Except.ok.injEq] at hnw
                subst hnw
                obtain ⟨w, hwl, hwn⟩ := h
                exact hwn (hall w hwl)
            · exfalso
              cases grads_of with
              | str s =>
                simp only [normOf] at hno
                rw [if_neg h] at hno
                exact Except.noConfusion hno
              | list l =>
                simp only [normOf, Except.ok.injEq] at hno
                subst hno
                obtain ⟨o, hol, hon⟩ := h
                exact hon (hgof o hol)
            · exact not_lt.mpr h
          rw [if_neg hdx]
          exact ⟨rfl, _, rfl⟩
        · rw [if_neg hgof]
          exact ⟨rfl, _, rfl⟩
    · rw [if_neg hall]
      exact ⟨rfl, _, rfl⟩

theorem forward_fails_before_solver_witness :
    (forwardAux stub0 [] [] (.list []) (.list ["BOGUS"]) none none none 1 "none" none).2 = [] ∧
    ∃ e, (forwardAux stub0 [] [] (.list []) (.list ["BOGUS"]) none none none 1 "none" none).1
      = .error e :=
  forward_fails_before_solver stub0 [] [] (.list []) (.list ["BOGUS"]) none none none
    1 "none" none (Or.inl (by decide))

/-- C10: group keywords are honored only when `grads_wrt` (or
`grads_of`, for `"all"`) is a bare string.  A `grads_wrt` list
containing a group keyword is rejected before any solver invocation
rather than expanded, while the same keyword as a bare string behaves
exactly like its expansion list; likewise a `grads_of` list containing
`"all"` is rejected before any solver invocation (given that the
solver's gradable registry does not itself contain the literal keyword),
while `grads_of = "all"` as a bare string behaves exactly like the full
gradable list. -/
theorem groups_only_as_string (solver : StrDict → Kwargs → Except Err StrDict)
    (gradables : List String) (co2dict : StrDict) (grads_of : StrOrList)
    (l : List String) (totals equilibria_in equilibria_out : Option StrDict)
    (dx : ℝ) (sc : String) (df : Option (Arr → ℝ))
    (g : String) (hg : g ∈ groups_wrt) (hl : g ∈ l)
    (lof : List String) (hlof : "all" ∈ lof) (hgr : "all" ∉ gradables) :
    ((forwardAux solver gradables co2dict grads_of (.list l) totals equilibria_in
        equilibria_out dx sc df).2 = [] ∧
     (forwardAux solver gradables co2dict grads_of (.list l) totals equilibria_in
        equilibria_out dx sc df).1 = .error (Err.assertion "grads_wrt")) ∧
    (∀ s ∈ groups_wrt,
      forwardAux solver gradables co2dict grads_of (.str s) totals equilibria_in
        equilibria_out dx sc df
      = forwardAux solver gradables co2dict grads_of (.list (expandGroup s)) totals
          equilibria_in equilibria_out dx sc df) ∧
    (∀ gwrt : StrOrList,
      (forwardAux solver gradables co2dict (.list lof) gwrt totals equilibria_in
        equilibria_out dx sc df).2 = [] ∧
      ∃ e, (forwardAux solver gradables co2dict (.list lof) gwrt totals equilibria_in
        equilibria_out dx sc df).1 = .error e) ∧
    ∀ gwrt : StrOrList,
      forwardAux solver gradables co2dict (.str "all") gwrt totals equilibria_in
        equilibria_out dx sc df
      = forwardAux solver gradables co2dict (.list gradables) gwrt totals
          equilibria_in equilibria_out dx sc df := by
  refine ⟨?_, ?_, ?_, ?_⟩
  · have hgn : g ∉ all_wrt :=
      (by decide : ∀ x ∈ groups_wrt, x ∉ all_wrt) g hg
    have hnall : ¬ ∀ w ∈ l, w ∈ all_wrt := fun hall => hgn (hall g hl)
    unfold forwardAux
    simp only [normWrt]
    rw [if_neg hnall]
    exact ⟨rfl, rfl⟩
  · intro s hs
    have hmem : s ∈ all_wrt ++ groups_wrt := List.mem_append_right _ hs
    unfold forwardAux
    have h1 : normWrt (.str s) = .ok (expandGroup s) := by
      simp only [normWrt]
      rw [if_pos hmem]
    rw [h1]
    rfl
  · intro gwrt
    unfold forwardAux
    cases hnw : normWrt gwrt with
    | error e => exact ⟨rfl, e, rfl⟩
    | ok gw =>
      dsimp only
      by_cases hall : ∀ w ∈ gw, w ∈ all_wrt
      · rw [if_pos hall]
        dsimp only [normOf]
        have hno : ¬ ∀ o ∈ lof, o ∈ gradables := fun hforall => hgr (hforall "all" hlof)
        rw [if_neg hno]
        exact ⟨rfl, _, rfl⟩
      · rw [if_neg hall]
        exact ⟨rfl, _, rfl⟩
  · intro gwrt
    unfold forwardAux
    have h1 : normOf gradables (.str "all") = .ok gradables := by
      simp only [normOf]
      rw [if_pos (List.mem_cons_self "all" gradables)]
      simp
    rw [h1]
    rfl

theorem groups_only_as_string_witness :
    ((forwardAux stub0 [] [] (.list []) (.list ["all"]) none none none 1 "none" none).2 = [] ∧
     (forwardAux stub0 [] [] (.list []) (.list ["all"]) none none none 1 "none" none).1
       = .error (Err.assertion "grads_wrt")) ∧
    (∀ s ∈ groups_wrt,
      forwardAux stub0 [] [] (.list []) (.str s) none none none 1 "none" none
      = forwardAux stub0 [] [] (.list []) (.list (expandGroup s)) none none none
          1 "none" none) ∧
    (∀ gwrt : StrOrList,
      (forwardAux stub0 [] [] (.list ["all"]) gwrt none none none 1 "none" none).2 = [] ∧
      ∃ e, (forwardAux stub0 [] [] (.list ["all"]) gwrt none none none
        1 "none" none).1 = .error e) ∧
    ∀ gwrt : StrOrList,
      forwardAux stub0 [] [] (.str "all") gwrt none none none 1 "none" none
      = forwardAux stub0 [] [] (.list []) gwrt none none none 1 "none" none :=
  groups_only_as_string stub0 [] [] (.list []) ["all"] none none none 1 "none" none
    "all" (by decide) (by decide) ["all"] (by decide) (by decide)

/-- C1 fails for the cologarithm-at-output names: `"pK1output"` is in
the accepted vocabulary, yet no branch of the loop body perturbs it —
the solver is re-invoked exactly once but with the *baseline* arguments
(no perturbation applied), and reading the never-assigned step then
raises `UnboundLocalError`, so no step `dxs[wrt]` is ever returned for
such a target. -/
theorem forward_pKoutput_unbound (solver : StrDict → Kwargs → Except Err StrDict)
    (gradables : List String) (co2dict : StrDict)
    (totals equilibria_in equilibria_out : Option StrDict)
    (dx : ℝ) (sc : String) (df : Option (Arr → ℝ)) (r : StrDict)
    (hdx : 0 < dx)
    (hs : solver (buildArgs co2dict) (buildKwargs co2dict totals equilibria_in equilibria_out)
      = .ok r) :
    forwardAux solver gradables co2dict (.list []) (.list ["pK1output"]) totals
      equilibria_in equilibria_out dx sc df
      = (.error Err.unboundLocal,
         [(buildArgs co2dict, buildKwargs co2dict totals equilibria_in equilibria_out)]) := by
  unfold forwardAux
  simp only [normWrt, normOf]
  rw [if_pos (by decide : ∀ w ∈ ["pK1output"], w ∈ all_wrt)]
  rw [if_pos (by simp : ∀ o ∈ ([] : List String), o ∈ gradables)]
  rw [if_pos hdx]
  have hp : perturbTarget co2dict (buildArgs co2dict)
      (buildKwargs co2dict totals equilibria_in equilibria_out) dx sc df "pK1output"
      = .ok (buildArgs co2dict,
             buildKwargs co2dict totals equilibria_in equilibria_out, none) := by
    unfold perturbTarget
    rw [if_neg (by decide : ¬ "pK1output" ∈ inputs_wrt)]
    rw [if_neg (by decide : ¬ "pK1output" ∈ totals_wrt)]
    rw [if_neg (by decide : ¬ "pK1output" ∈ Kis_wrt)]
    rw [if_neg (by decide : ¬ "pK1output" ∈ pKis_wrt)]
    rw [if_neg (by decide : ¬ "pK1output" ∈ Kos_wrt)]
  rw [forwardLoop, hp]
  dsimp only
  rw [hs]

theorem forward_pKoutput_unbound_witness :
    forwardAux stub0 [] [] (.list []) (.list ["pK1output"]) none none none 1 "none" none
      = (.error Err.unboundLocal, [(buildArgs [], buildKwargs [] none none none)]) :=
  forward_pKoutput_unbound stub0 [] [] none none none 1 "none" none []
    (by norm_num) rfl

/-- C9: `forward` is a pure function of its arguments — two calls with
identical arguments (including the same deterministic solver) return
identical derivative tables, realized steps and solver traces; the
embedding has no hidden mutable state, mirroring the source, which
reads only its arguments and module-level constant tables. -/
theorem forward_deterministic (solver : StrDict → Kwargs → Except Err StrDict)
    (gradables : List String) (co2dict : StrDict) (grads_of grads_wrt : StrOrList)
    (totals equilibria_in equilibria_out : Option StrDict)
    (dx : ℝ) (sc : String) (df : Option (Arr → ℝ))
    (x y : Except Err (DerivTable × Steps) × List Call)
    (hx : forwardAux solver gradables co2dict grads_of grads_wrt totals equilibria_in
      equilibria_out dx sc df = x)
    (hy : forwardAux solver gradables co2dict grads_of grads_wrt totals equilibria_in
      equilibria_out dx sc df = y) :
    x = y := hx.symm.trans hy

theorem forward_deterministic_witness :
    ((.error (Err.assertion "grads_wrt"), []) : Except Err (DerivTable × Steps) × List Call)
      = (.error (Err.assertion "grads_wrt"), []) :=
  forward_deterministic stub0 [] [] (.list []) (.str "nope") none none none 1 "none" none
    _ _ rfl rfl

theorem alookup_map_of_mem {β : Type} (l : List String) (f : String → β) (k : String)
    (hk : k ∈ l) :
    alookup (l.map (fun s => (s, f s))) k = some (f k) := by
  induction l with
  | nil => cases hk
  | cons a rest ih =>
    by_cases ha : a = k
    · subst ha
      simp [alookup]
    · have hk' : k ∈ rest := by
        cases List.mem_cons.mp hk with
        | inl h => exact absurd h.symm ha
        | inr h => exact h
      simp [alookup, ha, ih hk']

/-- C5: for every successful `propagate` call, the per-source component
for output `o` from source `s` is `|derivative[o][s]| * magnitude[s]`
elementwise, the total uncertainty for `o` is the elementwise
root-sum-of-squares of that output's components across all sources, and
in particular components `3` and `4` for the same output and sample
aggregate to `5`. -/
theorem propagate_spec (solver : StrDict → Kwargs → Except Err StrDict)
    (gradables : List String) (co2dict : StrDict)
    (uinto : List String) (ufrom : StrDict)
    (t ei eo : Option StrDict) (dx : ℝ) (sc : String) (df : Option (Arr → ℝ))
    (derivs : DerivTable) (dxs : Steps)
    (hf : forward solver gradables co2dict (.list uinto) (.list (ufrom.map Prod.fst))
      t ei eo dx sc df = .ok (derivs, dxs)) :
    (∃ UC, propagate solver gradables co2dict uinto ufrom t ei eo dx sc df = .ok UC) ∧
    (∀ U C, propagate solver gradables co2dict uinto ufrom t ei eo dx sc df = .ok (U, C) →
      (∀ o ∈ uinto,
        alookup C o = some ((condition ufrom (dget co2dict "PAR1").length).map
          (fun p => (p.1, List.zipWith (fun d m => |d| * m) (derivOf derivs o p.1) p.2)))) ∧
      (∀ o ∈ uinto,
        alookup U o = some (rssTotal (((alookup C o).getD []).map Prod.snd)))) ∧
    rssTotal [[3], [4]] = [(5 : ℝ)] := by
  have h5 : Real.sqrt ((3 : ℝ) ^ 2 + 4 ^ 2) = 5 := by
    rw [show (3 : ℝ) ^ 2 + 4 ^ 2 = 5 ^ 2 by norm_num]
    exact Real.sqrt_sq (by norm_num)
  refine ⟨?_, ?_, ?_⟩
  · unfold propagate
    rw [hf]
    exact ⟨_, rfl⟩
  · intro U C heq
    unfold propagate at heq
    rw [hf] at heq
    dsimp only at heq
    simp only [Except.ok.injEq, Prod.mk.injEq] at heq
    obtain ⟨hU, hC⟩ := heq
    subst hU
    subst hC
    constructor
    · intro o ho
      exact alookup_map_of_mem uinto _ o ho
    · intro o ho
      rw [alookup_map_of_mem uinto _ o ho]
  · simp [rssTotal, sumAxis0, h5]

theorem propagate_spec_witness :
    ((∃ UC, propagate stub0 [] [] [] [] none none none 1 "none" none = .ok UC) ∧
     (∀ U C, propagate stub0 [] [] [] [] none none none 1 "none" none = .ok (U, C) →
       (∀ o ∈ ([] : List String),
         alookup C o = some ((condition [] (dget [] "PAR1").length).map
           (fun p => (p.1, List.zipWith (fun d m => |d| * m) (derivOf [] o p.1) p.2)))) ∧
       (∀ o ∈ ([] : List String),
         alookup U o = some (rssTotal (((alookup C o).getD []).map Prod.snd)))) ∧
     rssTotal [[3], [4]] = [(5 : ℝ)]) :=
  propagate_spec stub0 [] [] [] [] none none none 1 "none" none [] []
    (by
      unfold forward forwardAux
      simp only [normWrt, normOf, List.map_nil]
      rw [if_pos (by simp : ∀ w ∈ ([] : List String), w ∈ all_wrt)]
      rw [if_pos (by simp : ∀ o ∈ ([] : List String), o ∈ ([] : List String))]
      rw [if_pos (by norm_num : (0 : ℝ) < 1)]
      rfl)

theorem forward_no_contamination_witness :
    ∃ wrt ∈ ["SAL"],
      (∃ dopt, perturbTarget [] (buildArgs []) (buildKwargs [] none none none)
        1 "none" none wrt = .ok (call0.1, call0.2, dopt)) ∧
      agreesExceptTarget (buildArgs [], buildKwargs [] none none none) call0 wrt := by
  have hcall : call0 ∈ (forwardAux stub0 [] [] (.list []) (.list ["SAL"]) none none none
      1 "none" none).2 := by
    have htr : (forwardAux stub0 [] [] (.list []) (.list ["SAL"]) none none none
        1 "none" none).2 = [call0] := by
      unfold forwardAux
      simp only [normWrt, normOf]
      rw [if_pos (by decide : ∀ w ∈ ["SAL"], w ∈ all_wrt)]
      rw [if_pos (by simp : ∀ o ∈ ([] : List String), o ∈ ([] : List String))]
      rw [if_pos (by norm_num : (0 : ℝ) < 1)]
      rfl
    rw [htr]
    exact List.mem_singleton.mpr rfl
  exact forward_no_contamination stub0 [] [] (.list []) ["SAL"] none none none
    1 "none" none call0 hcall

end PyCO2SYS
